import Mathlib

/-
Verification of the embedding-based sentence similarity scorer implemented in
src/bert_score_qe/muse.py.  The Python file has three parts, all modelled here:

  * load_vec      - parses a word-embedding text file into a vector matrix and a
                    bidirectional word/index mapping (with a cap nmax on the
                    number of words loaded);
  * read_corpus   - turns each corpus line into the list of embedding vectors of
                    its in-vocabulary (sub)words;
  * main          - the per-sentence greedy alignment scorer: recall, precision,
                    and F1 computed from pairwise dot products.

Modelling conventions.  Numeric values are rationals (the Python code runs on
floating point; every claim under study is about the exact algebraic structure
of the computations, which rationals capture).  Strings are Lean strings, with
character-level operations (split, strip, lower, character removal) spelled out
to match the Python string methods used.  Fallible operations (a failed assert,
a raised exception such as IndexError, ZeroDivisionError or a numpy vstack
error) are modelled with Option: a none result means the Python program raises
at that point.  Console printing (the progress log in load_vec) has no
observable effect on any result and is not modelled.
-/

namespace Muse

/-- One parsed data line of an embedding file, after the header line has been
skipped.  In load_vec a raw line is processed by splitting on the first space
into the word and the remaining text, which np.fromstring then parses into a
numeric vector; here file decoding and numeric parsing are abstracted away and
a data line is its word (the text before the first space, which may be empty if
the raw line starts with a space) together with its parsed vector. -/
structure EmbLine where
  word : String
  vect : List ℚ

/-- Model of np.vstack applied to the accumulated list of row vectors: it fails
(raises) on an empty list, and on rows of differing lengths; otherwise it
returns the rows unchanged as the embedding matrix. -/
def vstack (vs : List (List ℚ)) : Option (List (List ℚ)) :=
  match vs with
  | [] => none
  | v :: rest => if rest.all (fun u => u.length = v.length) then some (v :: rest) else none

/-- Loop body of load_vec over the data lines.  For each line: the assert
`word not in word2id` aborts the construction (modelled as none) if the word is
already a key; otherwise the vector is appended and the word is registered with
index `len(word2id)`; after registering, if `len(word2id) == nmax` the loop
breaks.  word2id is an insertion-ordered association list, as a Python dict
is. -/
def loadAux : List EmbLine → ℕ → List (String × ℕ) → List (List ℚ) →
    Option (List (String × ℕ) × List (List ℚ))
  | [], _, word2id, vectors => some (word2id, vectors)
  | l :: ls, nmax, word2id, vectors =>
    if l.word ∈ word2id.map Prod.fst then none
    else
      let word2id' := word2id ++ [(l.word, word2id.length)]
      let vectors' := vectors ++ [l.vect]
      if word2id'.length = nmax then some (word2id', vectors')
      else loadAux ls nmax word2id' vectors'

/-- Model of load_vec: run the loading loop starting from empty accumulators,
then build the embedding matrix with np.vstack and the inverse mapping
`id2word = \x7bv: k for k, v in word2id.items()\x7d`.  Returns
(embeddings, id2word, word2id) as the Python function does, or none when the
Python function raises. -/
def load_vec (lines : List EmbLine) (nmax : ℕ) :
    Option (List (List ℚ) × List (ℕ × String) × List (String × ℕ)) :=
  match loadAux lines nmax [] [] with
  | none => none
  | some (word2id, vectors) =>
    match vstack vectors with
    | none => none
    | some embeddings => some (embeddings, word2id.map (fun p => (p.2, p.1)), word2id)

/-- Characters removed from every token by `re.sub('[\x22,.:!?()]', '', word)`
in read_corpus: double quote, comma, period, colon, exclamation mark, question
mark, and both parentheses. -/
def punctChars : List Char := ['"', ',', '.', ':', '!', '?', '(', ')']

/-- Whitespace characters stripped by Python str.strip (ASCII range): space,
tab, newline, carriage return, vertical tab, form feed. -/
def isPyWhitespace (c : Char) : Bool := c ∈ [' ', '\t', '\n', '\r', Char.ofNat 11, Char.ofNat 12]

/-- Drop leading whitespace characters, the one-sided half of str.strip. -/
def dropLeadingWs : List Char → List Char
  | [] => []
  | c :: r => if isPyWhitespace c then dropLeadingWs r else c :: r

/-- Model of Python str.strip: whitespace removed from both ends. -/
def pyStrip (s : List Char) : List Char :=
  (dropLeadingWs (dropLeadingWs s.reverse).reverse)

/-- Model of Python str.split(sep) with a one-character separator: splits on
every occurrence of sep, keeping empty fragments, and the split of the empty
string is one empty fragment. -/
def splitOnChar (sep : Char) : List Char → List (List Char)
  | [] => [[]]
  | c :: rest =>
    let r := splitOnChar sep rest
    if c = sep then [] :: r
    else
      match r with
      | [] => [[c]]
      | g :: gs => (c :: g) :: gs

/-- Per-token normalization of read_corpus: `word = word.lower()` followed by
`word = re.sub('[\x22,.:!?()]', '', word)` which deletes each punctuation
character anywhere in the token.  Char.toLower matches str.lower on the ASCII
letters used throughout. -/
def normalizeToken (word : List Char) : List Char :=
  (word.map Char.toLower).filter (fun c => ¬ c ∈ punctChars)

/-- Hyphen handling of read_corpus: a normalized token containing a hyphen is
split on every hyphen into subwords; otherwise the token is its own single
subword. -/
def subwordsOf (word : List Char) : List (List Char) :=
  if '-' ∈ word then splitOnChar '-' word else [word]

/-- Vector contribution of one subword in read_corpus: a subword absent from
word2id is skipped (contributes nothing); a present subword contributes the
embedding row at its index.  In every table the pipeline builds, each stored
index is below the number of rows, so the row read never goes out of range;
the default row of getD is therefore never produced. -/
def subwordVecs (subword : String) (word2id : List (String × ℕ))
    (embeddings : List (List ℚ)) : List (List ℚ) :=
  match List.lookup subword word2id with
  | none => []
  | some index => [embeddings.getD index []]

/-- Per-line vectorization of read_corpus: strip the line, split on single
spaces, normalize each token, split into subwords, and concatenate the vector
contributions of the subwords in left-to-right order. -/
def sentVectors (line : String) (word2id : List (String × ℕ))
    (embeddings : List (List ℚ)) : List (List ℚ) :=
  (splitOnChar ' ' (pyStrip line.toList)).foldr
    (fun word acc =>
      (subwordsOf (normalizeToken word)).foldr
        (fun subword acc2 => subwordVecs (String.mk subword) word2id embeddings ++ acc2) []
        ++ acc)
    []

/-- Model of read_corpus: one vector sequence per corpus line, in order. -/
def read_corpus (lines : List String) (word2id : List (String × ℕ))
    (embeddings : List (List ℚ)) : List (List (List ℚ)) :=
  lines.map (fun line => sentVectors line word2id embeddings)

/-- Model of np.dot on the (equal-dimension) embedding vectors: the sum of the
componentwise products. -/
def dot (u v : List ℚ) : ℚ := (List.zipWith (fun a b => a * b) u v).sum

/-- Inner loop of the recall computation in main: the running maximum over
`cur = np.dot(src_wrd, tgt_wrd)` for tgt_wrd in tgt_sent, initialized to -2 and
updated only on strict greater-than. -/
def maxSimTo (src_wrd : List ℚ) (tgt_sent : List (List ℚ)) : ℚ :=
  tgt_sent.foldl (fun cur_max tgt_wrd =>
    if dot src_wrd tgt_wrd > cur_max then dot src_wrd tgt_wrd else cur_max) (-2)

/-- Inner loop of the precision computation in main: the running maximum over
`cur = np.dot(src_wrd, tgt_wrd)` for src_wrd in src_sent, for a fixed tgt_wrd,
initialized to -2 and updated only on strict greater-than. -/
def maxSimFrom (tgt_wrd : List ℚ) (src_sent : List (List ℚ)) : ℚ :=
  src_sent.foldl (fun cur_max src_wrd =>
    if dot src_wrd tgt_wrd > cur_max then dot src_wrd tgt_wrd else cur_max) (-2)

/-- Recall in main: the running maxima summed over src_sent, divided by
`len(src_sent)`. -/
def recallOf (src_sent tgt_sent : List (List ℚ)) : ℚ :=
  (src_sent.map (fun src_wrd => maxSimTo src_wrd tgt_sent)).sum / src_sent.length

/-- Precision in main: the running maxima summed over tgt_sent, divided by
`len(tgt_sent)`. -/
def precisionOf (src_sent tgt_sent : List (List ℚ)) : ℚ :=
  (tgt_sent.map (fun tgt_wrd => maxSimFrom tgt_wrd src_sent)).sum / tgt_sent.length

/-- Per-line score of the loop in main: if either vector sequence is empty the
constant 1 is appended; otherwise R, P and `F = 2 * P * R / (P + R)` are
computed, the unguarded division raising ZeroDivisionError (modelled as none)
when P + R = 0. -/
def scoreSent (src_sent tgt_sent : List (List ℚ)) : Option ℚ :=
  if src_sent.length = 0 ∨ tgt_sent.length = 0 then some 1
  else
    let R := recallOf src_sent tgt_sent
    let P := precisionOf src_sent tgt_sent
    if P + R = 0 then none
    else some (2 * P * R / (P + R))

/-- Scoring loop of main: `for i in range(len(src_sentences))`, reading
`tgt_sentences[i]` by position.  When tgt_sentences is exhausted before
src_sentences the read raises IndexError (none); extra lines of tgt_sentences
beyond the length of src_sentences are never read. -/
def scoreCorpus : List (List (List ℚ)) → List (List (List ℚ)) → Option (List ℚ)
  | [], _ => some []
  | _ :: _, [] => none
  | s :: ss, t :: ts =>
    match scoreSent s t with
    | none => none
    | some q =>
      match scoreCorpus ss ts with
      | none => none
      | some rest => some (q :: rest)

/-- Spec-side definition, written from the claims' words: the true maximum of a
list of rationals (meaningful only for non-empty lists; the value on the empty
list is an arbitrary default). -/
def listMax : List ℚ → ℚ
  | [] => 0
  | c :: cs => cs.foldl max c

/-- Spec-side definition: the true maximum dot product of a vector w against
the vectors of a sentence, as the claims describe the recall direction. -/
def trueMaxDotTo (w : List ℚ) (sent : List (List ℚ)) : ℚ :=
  listMax (sent.map (fun t => dot w t))

/-- Spec-side definition: the true maximum dot product against the vectors of
a sentence in the precision direction, with the dot product taken in the same
argument order as the code. -/
def trueMaxDotFrom (t : List ℚ) (sent : List (List ℚ)) : ℚ :=
  listMax (sent.map (fun s => dot s t))

/-- Association of consecutive indices starting at j to a list of words, in
order; indexFrom 0 ws is the word2id table holding exactly the words ws. -/
def indexFrom (j : ℕ) : List String → List (String × ℕ)
  | [] => []
  | w :: ws => (w, j) :: indexFrom (j + 1) ws

end Muse

namespace Muse

/-! Shared lemmas about the running-maximum fold, the dot product, and the
loading loop.  These are used by several of the claim theorems below. -/

lemma foldl_if_eq_foldl_max {α : Type} (g : α → ℚ) (l : List α) (a : ℚ) :
    l.foldl (fun m x => if g x > m then g x else m) a = l.foldl (fun m x => max m (g x)) a := by
  induction l generalizing a with
  | nil => rfl
  | cons x xs ih =>
    simp only [List.foldl_cons]
    rw [ih]
    congr 1
    rcases le_or_lt (g x) a with hle | hlt
    · rw [if_neg (not_lt.mpr hle), max_eq_left hle]
    · rw [if_pos hlt, max_eq_right (le_of_lt hlt)]

lemma foldl_max_init (ds : List ℚ) (a b : ℚ) :
    ds.foldl max (max a b) = max a (ds.foldl max b) := by
  induction ds generalizing b with
  | nil => rfl
  | cons d ds ih =>
    simp only [List.foldl_cons]
    rw [max_assoc, ih]

lemma foldl_max_g {α : Type} (g : α → ℚ) (l : List α) (a : ℚ) :
    l.foldl (fun m x => max m (g x)) a = (l.map g).foldl max a := by
  rw [List.foldl_map]

lemma maxSimTo_eq_clamp (w : List ℚ) (sent : List (List ℚ)) (h : sent ≠ []) :
    maxSimTo w sent = max (-2) (trueMaxDotTo w sent) := by
  obtain ⟨t, ts, rfl⟩ := List.exists_cons_of_ne_nil h
  rw [maxSimTo, foldl_if_eq_foldl_max, foldl_max_g]
  simp only [List.foldl_cons, trueMaxDotTo, listMax, List.map_cons]
  rw [foldl_max_init]

lemma dot_comm (u v : List ℚ) : dot u v = dot v u := by
  unfold dot
  rw [List.zipWith_comm_of_comm (fun a b => a * b) mul_comm]

lemma foldl_ext {α β : Type} (l : List α) (f g : β → α → β) (a : β)
    (h : ∀ b x, f b x = g b x) : l.foldl f a = l.foldl g a := by
  induction l generalizing a with
  | nil => rfl
  | cons x xs ih => simp only [List.foldl_cons]; rw [h, ih]

lemma maxSimFrom_eq_maxSimTo (t : List ℚ) (sent : List (List ℚ)) :
    maxSimFrom t sent = maxSimTo t sent := by
  unfold maxSimFrom maxSimTo
  exact foldl_ext _ _ _ _ (fun b x => by rw [dot_comm])

lemma trueMaxDotFrom_eq (t : List ℚ) (sent : List (List ℚ)) :
    trueMaxDotFrom t sent = trueMaxDotTo t sent := by
  unfold trueMaxDotFrom trueMaxDotTo
  congr 1
  exact List.map_congr_left (fun s _ => dot_comm s t)

lemma maxSimFrom_eq_clamp (t : List ℚ) (sent : List (List ℚ)) (h : sent ≠ []) :
    maxSimFrom t sent = max (-2) (trueMaxDotFrom t sent) := by
  rw [maxSimFrom_eq_maxSimTo, trueMaxDotFrom_eq, maxSimTo_eq_clamp t sent h]

lemma precisionOf_eq_recallOf_swap (A B : List (List ℚ)) :
    precisionOf A B = recallOf B A := by
  have hmap : List.map (fun t => maxSimFrom t A) B = List.map (fun t => maxSimTo t A) B :=
    List.map_congr_left (fun t _ => maxSimFrom_eq_maxSimTo t A)
  unfold precisionOf recallOf
  rw [hmap]

lemma scoreSent_comm (A B : List (List ℚ)) : scoreSent A B = scoreSent B A := by
  by_cases hA : A.length = 0 <;> by_cases hB : B.length = 0
  · simp [scoreSent, hA, hB]
  · simp [scoreSent, hA, hB]
  · simp [scoreSent, hA, hB]
  · simp only [scoreSent, hA, hB, or_self, false_or, or_false, if_false]
    rw [precisionOf_eq_recallOf_swap A B, precisionOf_eq_recallOf_swap B A]
    rw [add_comm (recallOf B A) (recallOf A B)]
    by_cases hz : recallOf A B + recallOf B A = 0
    · rw [if_pos hz, if_pos hz]
    · rw [if_neg hz, if_neg hz]
      congr 1
      ring

end Muse

namespace Muse

lemma loadAux_take_eq (lines : List EmbLine) (nmax : ℕ) (acc_w : List (String × ℕ))
    (acc_v : List (List ℚ)) (hlt : acc_w.length < nmax)
    (hle : nmax - acc_w.length ≤ lines.length)
    (hnd : (acc_w.map Prod.fst ++ (lines.take (nmax - acc_w.length)).map EmbLine.word).Nodup) :
    loadAux lines nmax acc_w acc_v =
      some (acc_w ++ indexFrom acc_w.length ((lines.take (nmax - acc_w.length)).map EmbLine.word),
            acc_v ++ (lines.take (nmax - acc_w.length)).map EmbLine.vect) := by
  induction lines generalizing acc_w acc_v with
  | nil => simp at hle; omega
  | cons l ls ih =>
    obtain ⟨m, hm⟩ : ∃ m, nmax - acc_w.length = m + 1 := ⟨nmax - acc_w.length - 1, by omega⟩
    rw [hm] at hnd ⊢
    rw [List.take_succ_cons] at hnd ⊢
    simp only [List.map_cons] at hnd
    have hnotmem : l.word ∉ acc_w.map Prod.fst := by
      have hd := List.disjoint_of_nodup_append hnd
      exact fun hmem => hd hmem (List.mem_cons_self _ _)
    simp only [loadAux, hnotmem, if_false]
    by_cases hbreak : acc_w.length + 1 = nmax
    · have hm0 : m = 0 := by omega
      subst hm0
      simp [hbreak, indexFrom]
    · have hlen : (acc_w ++ [(l.word, acc_w.length)]).length = acc_w.length + 1 := by simp
      rw [if_neg (by rw [hlen]; exact hbreak)]
      have hlt' : (acc_w ++ [(l.word, acc_w.length)]).length < nmax := by rw [hlen]; omega
      have hle' : nmax - (acc_w ++ [(l.word, acc_w.length)]).length ≤ ls.length := by
        rw [hlen]
        simp at hle
        omega
      have hsub : nmax - (acc_w ++ [(l.word, acc_w.length)]).length = m := by rw [hlen]; omega
      have hnd' : ((acc_w ++ [(l.word, acc_w.length)]).map Prod.fst ++
          (ls.take (nmax - (acc_w ++ [(l.word, acc_w.length)]).length)).map EmbLine.word).Nodup := by
        rw [hsub]
        simpa [List.append_assoc] using hnd
      have hrec := ih (acc_w ++ [(l.word, acc_w.length)]) (acc_v ++ [l.vect]) hlt' hle' hnd'
      rw [hrec, hsub, hlen]
      simp [indexFrom, List.append_assoc]

lemma loadAux_inv (lines : List EmbLine) (nmax : ℕ) (acc_w : List (String × ℕ))
    (acc_v : List (List ℚ)) (w : List (String × ℕ)) (v : List (List ℚ))
    (h : loadAux lines nmax acc_w acc_v = some (w, v))
    (h1 : (acc_w.map Prod.fst).Nodup) (h2 : acc_w.length = acc_v.length)
    (h3 : acc_w.map Prod.snd = List.range acc_w.length) :
    (w.map Prod.fst).Nodup ∧ w.length = v.length ∧ w.map Prod.snd = List.range w.length := by
  induction lines generalizing acc_w acc_v with
  | nil =>
    simp only [loadAux, Option.some.injEq, Prod.mk.injEq] at h
    obtain ⟨rfl, rfl⟩ := h
    exact ⟨h1, h2, h3⟩
  | cons l ls ih =>
    simp only [loadAux] at h
    by_cases hmem : l.word ∈ acc_w.map Prod.fst
    · simp [hmem] at h
    · simp only [hmem, if_false] at h
      have h1' : ((acc_w ++ [(l.word, acc_w.length)]).map Prod.fst).Nodup := by
        simp only [List.map_append, List.map_cons, List.map_nil]
        rw [List.nodup_append]
        refine ⟨h1, List.nodup_singleton _, ?_⟩
        intro a ha hb
        simp at hb
        subst hb
        exact hmem ha
      have h2' : (acc_w ++ [(l.word, acc_w.length)]).length = (acc_v ++ [l.vect]).length := by
        simp [h2]
      have h3' : (acc_w ++ [(l.word, acc_w.length)]).map Prod.snd =
          List.range (acc_w ++ [(l.word, acc_w.length)]).length := by
        simp only [List.map_append, List.map_cons, List.map_nil, List.length_append,
          List.length_cons, List.length_nil]
        rw [h3, ← List.range_succ]
      by_cases hbreak : (acc_w ++ [(l.word, acc_w.length)]).length = nmax
      · rw [if_pos hbreak] at h
        simp only [Option.some.injEq, Prod.mk.injEq] at h
        obtain ⟨rfl, rfl⟩ := h
        exact ⟨h1', h2', h3'⟩
      · rw [if_neg hbreak] at h
        exact ih _ _ h h1' h2' h3'

lemma loadAux_none_of_dup (lines : List EmbLine) (nmax : ℕ) (acc_w : List (String × ℕ))
    (acc_v : List (List ℚ)) (hlt : acc_w.length < nmax)
    (hnd : ¬ (acc_w.map Prod.fst ++ (lines.take (nmax - acc_w.length)).map EmbLine.word).Nodup)
    (hacc : (acc_w.map Prod.fst).Nodup) :
    loadAux lines nmax acc_w acc_v = none := by
  induction lines generalizing acc_w acc_v with
  | nil => simp at hnd; exact absurd hacc hnd
  | cons l ls ih =>
    obtain ⟨m, hm⟩ : ∃ m, nmax - acc_w.length = m + 1 := ⟨nmax - acc_w.length - 1, by omega⟩
    rw [hm, List.take_succ_cons, List.map_cons] at hnd
    by_cases hmem : l.word ∈ acc_w.map Prod.fst
    · simp [loadAux, hmem]
    · simp only [loadAux, hmem, if_false]
      by_cases hbreak : (acc_w ++ [(l.word, acc_w.length)]).length = nmax
      · exfalso
        have hm0 : m = 0 := by simp at hbreak; omega
        subst hm0
        apply hnd
        simp only [List.take_zero, List.map_nil]
        rw [List.nodup_append]
        refine ⟨hacc, List.nodup_cons.mpr (by simp), ?_⟩
        intro a ha hb
        simp at hb
        subst hb
        exact hmem ha
      · rw [if_neg hbreak]
        apply ih
        · simp only [List.length_append, List.length_cons, List.length_nil] at hbreak ⊢
          omega
        · have hsub : nmax - (acc_w ++ [(l.word, acc_w.length)]).length = m := by
            simp at hbreak ⊢; omega
          rw [hsub]
          intro hcon
          apply hnd
          simpa [List.append_assoc] using hcon
        · simp only [List.map_append, List.map_cons, List.map_nil]
          rw [List.nodup_append]
          refine ⟨hacc, List.nodup_singleton _, ?_⟩
          intro a ha hb
          simp at hb
          subst hb
          exact hmem ha

lemma loadAux_keys_sub (lines : List EmbLine) (nmax : ℕ) (acc_w : List (String × ℕ))
    (acc_v : List (List ℚ)) (w : List (String × ℕ)) (v : List (List ℚ))
    (h : loadAux lines nmax acc_w acc_v = some (w, v)) :
    ∀ s ∈ w.map Prod.fst, s ∈ acc_w.map Prod.fst ∨ s ∈ lines.map EmbLine.word := by
  induction lines generalizing acc_w acc_v with
  | nil =>
    simp only [loadAux, Option.some.injEq, Prod.mk.injEq] at h
    obtain ⟨rfl, rfl⟩ := h
    intro s hs
    exact Or.inl hs
  | cons l ls ih =>
    simp only [loadAux] at h
    by_cases hmem : l.word ∈ acc_w.map Prod.fst
    · simp [hmem] at h
    · simp only [hmem, if_false] at h
      by_cases hbreak : (acc_w ++ [(l.word, acc_w.length)]).length = nmax
      · rw [if_pos hbreak] at h
        simp only [Option.some.injEq, Prod.mk.injEq] at h
        obtain ⟨rfl, rfl⟩ := h
        intro s hs
        simp only [List.map_append, List.map_cons, List.map_nil, List.mem_append,
          List.mem_cons] at hs
        rcases hs with hs | hs
        · exact Or.inl hs
        · simp at hs
          subst hs
          exact Or.inr (by simp)
      · rw [if_neg hbreak] at h
        intro s hs
        rcases ih _ _ h s hs with hl | hr
        · simp only [List.map_append, List.map_cons, List.map_nil, List.mem_append,
            List.mem_cons] at hl
          rcases hl with hl | hl
          · exact Or.inl hl
          · simp at hl
            subst hl
            exact Or.inr (by simp)
        · exact Or.inr (by simp [hr])

lemma lookup_eq_none_of_not_mem (l : List (String × ℕ)) (a : String)
    (h : a ∉ l.map Prod.fst) : List.lookup a l = none := by
  induction l with
  | nil => rfl
  | cons p tl ih =>
    simp only [List.map_cons, List.mem_cons, not_or] at h
    have hbeq : (a == p.1) = false := beq_eq_false_iff_ne.mpr h.1
    rw [List.lookup_cons, hbeq]
    exact ih h.2

end Muse

namespace Muse

/-- Claim C1 (counterexample): the scorer does not always return R equal to the
average of the true per-vector maximum dot products.  For the single source
vector [1] against the single target vector [-5], the only dot product is -5,
so the claimed R is -5; but the code's running maximum is initialized to -2 and
never updated (since -5 is not greater than -2), so the computed R is -2. -/
theorem c1_counterexample :
    recallOf [[(1:ℚ)]] [[(-5:ℚ)]] ≠
      ((([[(1:ℚ)]] : List (List ℚ)).map (fun w => trueMaxDotTo w [[(-5:ℚ)]])).sum) /
        ((([[(1:ℚ)]] : List (List ℚ)).length : ℚ)) := by
  norm_num [recallOf, maxSimTo, dot, trueMaxDotTo, listMax]

/-- Claim C1 (amended): for non-empty vector sequences, the scorer returns R
equal to the average over the source vectors of max(-2, m) where m is the true
maximum dot product against the target vectors, P equal to the symmetric
average over the target vectors, and, whenever P + R is non-zero, the per-line
score F = 2 * P * R / (P + R).  Similarities are raw dot products of the
vectors as loaded, with no normalization. -/
theorem c1_amended (src tgt : List (List ℚ)) (hs : src ≠ []) (ht : tgt ≠ []) :
    recallOf src tgt =
      (src.map (fun w => max (-2) (trueMaxDotTo w tgt))).sum / (src.length : ℚ) ∧
    precisionOf src tgt =
      (tgt.map (fun t => max (-2) (trueMaxDotFrom t src))).sum / (tgt.length : ℚ) ∧
    (precisionOf src tgt + recallOf src tgt ≠ 0 →
      scoreSent src tgt = some (2 * precisionOf src tgt * recallOf src tgt /
        (precisionOf src tgt + recallOf src tgt))) := by
  refine ⟨?_, ?_, ?_⟩
  · unfold recallOf
    rw [List.map_congr_left (fun w _ => maxSimTo_eq_clamp w tgt ht)]
  · unfold precisionOf
    rw [List.map_congr_left (fun t _ => maxSimFrom_eq_clamp t src hs)]
  · intro hz
    simp only [scoreSent]
    rw [if_neg (by simp [hs, ht, List.length_eq_zero])]
    rw [if_neg hz]

/-- Witness for the amended claim C1 at src = [[1]], tgt = [[2]]. -/
theorem c1_amended_witness :
    recallOf [[(1:ℚ)]] [[(2:ℚ)]] =
      (([[(1:ℚ)]] : List (List ℚ)).map (fun w => max (-2) (trueMaxDotTo w [[(2:ℚ)]]))).sum /
        ((([[(1:ℚ)]] : List (List ℚ)).length : ℚ)) ∧
    precisionOf [[(1:ℚ)]] [[(2:ℚ)]] =
      (([[(2:ℚ)]] : List (List ℚ)).map (fun t => max (-2) (trueMaxDotFrom t [[(1:ℚ)]]))).sum /
        ((([[(2:ℚ)]] : List (List ℚ)).length : ℚ)) ∧
    scoreSent [[(1:ℚ)]] [[(2:ℚ)]] =
      some (2 * precisionOf [[(1:ℚ)]] [[(2:ℚ)]] * recallOf [[(1:ℚ)]] [[(2:ℚ)]] /
        (precisionOf [[(1:ℚ)]] [[(2:ℚ)]] + recallOf [[(1:ℚ)]] [[(2:ℚ)]])) := by
  have h := c1_amended [[(1:ℚ)]] [[(2:ℚ)]] (by simp) (by simp)
  exact ⟨h.1, h.2.1, h.2.2 (by norm_num [precisionOf, recallOf, maxSimTo, maxSimFrom, dot])⟩

/-- Claim C2: when either vector sequence of a line pair is empty, the per-line
score is exactly the constant 1, whatever the other sequence holds; the
definition of scoreSent branches to the constant before any precision or
recall computation. -/
theorem c2_empty_fallback (src tgt : List (List ℚ)) (h : src = [] ∨ tgt = []) :
    scoreSent src tgt = some 1 := by
  rcases h with rfl | rfl
  · simp [scoreSent]
  · simp [scoreSent]

/-- Witness for claim C2 on both sides, with a non-empty other sequence. -/
theorem c2_empty_fallback_witness :
    scoreSent [] [[(7:ℚ)]] = some 1 ∧ scoreSent [[(7:ℚ)]] [] = some 1 :=
  ⟨c2_empty_fallback _ _ (Or.inl rfl), c2_empty_fallback _ _ (Or.inr rfl)⟩

/-- Claim C3: the division by P + R is unguarded and the zero-division branch
is reachable from non-empty inputs.  End to end: loading the 2-word table
cat -> [1,0], dog -> [0,1] succeeds, the lines "cat" and "dog" vectorize to the
single orthogonal vectors, P = R = 0 on that pair, and the per-line score
computation raises (modelled as none). -/
theorem c3_div_by_zero_reachable :
    load_vec [⟨"cat", [1, 0]⟩, ⟨"dog", [0, 1]⟩] 2 =
      some ([[1, 0], [0, 1]], [(0, "cat"), (1, "dog")], [("cat", 0), ("dog", 1)]) ∧
    read_corpus ["cat"] [("cat", 0), ("dog", 1)] [[1, 0], [0, 1]] = [[[1, 0]]] ∧
    read_corpus ["dog"] [("cat", 0), ("dog", 1)] [[1, 0], [0, 1]] = [[[0, 1]]] ∧
    precisionOf [[(1:ℚ), 0]] [[(0:ℚ), 1]] = 0 ∧
    recallOf [[(1:ℚ), 0]] [[(0:ℚ), 1]] = 0 ∧
    scoreSent [[(1:ℚ), 0]] [[(0:ℚ), 1]] = none := by
  refine ⟨by decide, by decide, by decide, ?_, ?_, ?_⟩ <;>
    norm_num [precisionOf, recallOf, scoreSent, maxSimTo, maxSimFrom, dot]

/-- Claim C4: swapping the two non-empty inputs of the alignment scorer swaps
precision and recall and leaves the per-line score (hence F1) unchanged. -/
theorem c4_swap_symmetry (A B : List (List ℚ)) (hA : A ≠ []) (hB : B ≠ []) :
    precisionOf A B = recallOf B A ∧ recallOf A B = precisionOf B A ∧
    scoreSent A B = scoreSent B A :=
  ⟨precisionOf_eq_recallOf_swap A B, (precisionOf_eq_recallOf_swap B A).symm,
    scoreSent_comm A B⟩

/-- Witness for claim C4 at A = [[1]], B = [[2]]. -/
theorem c4_swap_symmetry_witness :
    precisionOf [[(1:ℚ)]] [[(2:ℚ)]] = recallOf [[(2:ℚ)]] [[(1:ℚ)]] ∧
    recallOf [[(1:ℚ)]] [[(2:ℚ)]] = precisionOf [[(2:ℚ)]] [[(1:ℚ)]] ∧
    scoreSent [[(1:ℚ)]] [[(2:ℚ)]] = scoreSent [[(2:ℚ)]] [[(1:ℚ)]] :=
  c4_swap_symmetry [[(1:ℚ)]] [[(2:ℚ)]] (by simp) (by simp)

/-- Claim C10: for a non-empty candidate sequence, the per-vector maximum the
scorer actually uses equals max(-2, m) with m the true maximum dot product, in
both the recall and the precision direction: the running maximum starts at -2
and is updated only on strict greater-than, so whenever every dot product is at
most -2 the sentinel -2 enters the average instead of the true maximum. -/
theorem c10_sentinel_max (w : List ℚ) (sent : List (List ℚ)) (h : sent ≠ []) :
    maxSimTo w sent = max (-2) (trueMaxDotTo w sent) ∧
    maxSimFrom w sent = max (-2) (trueMaxDotFrom w sent) :=
  ⟨maxSimTo_eq_clamp w sent h, maxSimFrom_eq_clamp w sent h⟩

/-- Witness for claim C10 at w = [1], sent = [[-5]]. -/
theorem c10_sentinel_max_witness :
    maxSimTo [(1:ℚ)] [[(-5:ℚ)]] = max (-2) (trueMaxDotTo [(1:ℚ)] [[(-5:ℚ)]]) ∧
    maxSimFrom [(1:ℚ)] [[(-5:ℚ)]] = max (-2) (trueMaxDotFrom [(1:ℚ)] [[(-5:ℚ)]]) :=
  c10_sentinel_max [(1:ℚ)] [[(-5:ℚ)]] (by simp)

end Muse

namespace Muse

lemma vstack_eq (vs E : List (List ℚ)) (h : vstack vs = some E) : E = vs := by
  unfold vstack at h
  split at h
  · simp at h
  · split at h
    · simp only [Option.some.injEq] at h
      exact h.symm
    · simp at h

lemma load_vec_inv (lines : List EmbLine) (nmax : ℕ) (E : List (List ℚ))
    (id2word : List (ℕ × String)) (word2id : List (String × ℕ))
    (h : load_vec lines nmax = some (E, id2word, word2id)) :
    ∃ vecs, loadAux lines nmax [] [] = some (word2id, vecs) ∧ vstack vecs = some E ∧
      id2word = word2id.map (fun p => (p.2, p.1)) := by
  unfold load_vec at h
  cases haux : loadAux lines nmax [] [] with
  | none => rw [haux] at h; simp at h
  | some wv =>
    obtain ⟨w2, vecs⟩ := wv
    rw [haux] at h
    dsimp only at h
    cases hvs : vstack vecs with
    | none => rw [hvs] at h; simp at h
    | some E' =>
      rw [hvs] at h
      dsimp only at h
      simp only [Option.some.injEq, Prod.mk.injEq] at h
      obtain ⟨hE, hid, hw2⟩ := h
      subst hE hid hw2
      exact ⟨vecs, rfl, hvs, rfl⟩

lemma load_vec_eq_of (lines : List EmbLine) (nmax : ℕ) (word2id : List (String × ℕ))
    (vecs E : List (List ℚ)) (h1 : loadAux lines nmax [] [] = some (word2id, vecs))
    (h2 : vstack vecs = some E) :
    load_vec lines nmax = some (E, word2id.map (fun p => (p.2, p.1)), word2id) := by
  unfold load_vec
  rw [h1]
  dsimp only
  rw [h2]

/-- Claim C5 (counterexample): with cap k = 0 the table does not have exactly
k = 0 entries: registering a word can never make the table size equal 0, so the
break never fires and the whole (one-line) file is loaded. -/
theorem c5_counterexample :
    load_vec [⟨"a", [(1:ℚ)]⟩] 0 = some ([[1]], [(0, "a")], [("a", 0)]) ∧
    ([("a", 0)] : List (String × ℕ)).length ≠ 0 :=
  ⟨by decide, by decide⟩

/-- Claim C5 (amended): for every positive cap k and every well-formed
embedding file (pairwise-distinct words, a fixed vector dimension) with at
least k data lines, loading with cap k succeeds and produces a table with
exactly k entries: the first k words of the file in file order, indexed
0 to k-1, with the first k vectors as the matrix rows; lines beyond the
first k are never consulted. -/
theorem c5_amended (lines : List EmbLine) (k d : ℕ) (hk : 1 ≤ k)
    (hlen : k ≤ lines.length) (hnd : (lines.map EmbLine.word).Nodup)
    (hd : ∀ l ∈ lines, l.vect.length = d) :
    load_vec lines k =
      some ((lines.take k).map EmbLine.vect,
        (indexFrom 0 ((lines.take k).map EmbLine.word)).map (fun p => (p.2, p.1)),
        indexFrom 0 ((lines.take k).map EmbLine.word)) := by
  have htknd : ((lines.take k).map EmbLine.word).Nodup := by
    rw [List.map_take]
    exact (List.take_sublist k (lines.map EmbLine.word)).nodup hnd
  have haux := loadAux_take_eq lines k [] [] (by simpa using hk) (by simpa using hlen)
    (by simpa using htknd)
  simp only [List.length_nil, Nat.sub_zero, List.nil_append] at haux
  have hall : ∀ u ∈ (lines.take k).map EmbLine.vect, u.length = d := by
    intro u hu
    obtain ⟨l, hl, rfl⟩ := List.mem_map.mp hu
    exact hd l (List.take_subset k lines hl)
  have hne : (lines.take k).map EmbLine.vect ≠ [] := by
    have hlen' : ((lines.take k).map EmbLine.vect).length = k := by
      rw [List.length_map, List.length_take]
      omega
    intro hc
    rw [hc] at hlen'
    simp at hlen'
    omega
  obtain ⟨l0, ls0, heq⟩ := List.exists_cons_of_ne_nil hne
  have hvs : vstack ((lines.take k).map EmbLine.vect) =
      some ((lines.take k).map EmbLine.vect) := by
    have h0 : l0.length = d := hall l0 (by rw [heq]; exact List.mem_cons_self _ _)
    rw [heq] at hall ⊢
    simp only [vstack]
    rw [if_pos]
    rw [List.all_eq_true]
    intro u hu
    simp only [decide_eq_true_eq]
    rw [hall u (List.mem_cons_of_mem _ hu), h0]
  exact load_vec_eq_of lines k _ _ _ haux hvs

/-- Witness for the amended claim C5: a 3-line file with distinct words and
cap 2 loads exactly the first two words with indices 0 and 1. -/
theorem c5_amended_witness :
    load_vec [⟨"a", [(1:ℚ)]⟩, ⟨"b", [(2:ℚ)]⟩, ⟨"c", [(3:ℚ)]⟩] 2 =
      some ([[1], [2]], [(0, "a"), (1, "b")], [("a", 0), ("b", 1)]) :=
  c5_amended [⟨"a", [(1:ℚ)]⟩, ⟨"b", [(2:ℚ)]⟩, ⟨"c", [(3:ℚ)]⟩] 2 1
    (by decide) (by decide) (by decide) (by decide)

/-- Claim C6 (counterexample): a duplicated word in the source file does not
always abort construction: with cap 2, the file a, b, a loads successfully
because the loop breaks before reaching the second occurrence of a. -/
theorem c6_counterexample :
    (([⟨"a", [(1:ℚ)]⟩, ⟨"b", [(2:ℚ)]⟩, ⟨"a", [(3:ℚ)]⟩] : List EmbLine).map
      EmbLine.word).count "a" = 2 ∧
    load_vec [⟨"a", [(1:ℚ)]⟩, ⟨"b", [(2:ℚ)]⟩, ⟨"a", [(3:ℚ)]⟩] 2 =
      some ([[1], [2]], [(0, "a"), (1, "b")], [("a", 0), ("b", 1)]) :=
  ⟨by decide, by decide⟩

/-- Claim C6 (amended): every successfully constructed table satisfies the
stated invariants - each word appears exactly once, the word count equals the
number of matrix rows, indices are contiguous from 0, and id2word inverts
word2id; and if the same word appears twice among the lines scanned before a
positive cap stops loading (the first nmax lines), construction aborts fatally
with no partial table. -/
theorem c6_amended :
    (∀ (lines : List EmbLine) (nmax : ℕ) (E : List (List ℚ))
        (id2word : List (ℕ × String)) (word2id : List (String × ℕ)),
      load_vec lines nmax = some (E, id2word, word2id) →
      (word2id.map Prod.fst).Nodup ∧ word2id.length = E.length ∧
      word2id.map Prod.snd = List.range word2id.length ∧
      (∀ w i, (w, i) ∈ word2id ↔ (i, w) ∈ id2word)) ∧
    (∀ (lines : List EmbLine) (nmax : ℕ), 1 ≤ nmax →
      ¬ ((lines.take nmax).map EmbLine.word).Nodup → load_vec lines nmax = none) := by
  constructor
  · intro lines nmax E id2word word2id h
    obtain ⟨vecs, haux, hvs, hid⟩ := load_vec_inv lines nmax E id2word word2id h
    obtain ⟨hnd, hlen, hrange⟩ := loadAux_inv lines nmax [] [] word2id vecs haux
      (by simp) (by simp) (by simp)
    have hEv : E = vecs := vstack_eq vecs E hvs
    refine ⟨hnd, by rw [hEv]; exact hlen, hrange, ?_⟩
    intro w i
    subst hid
    constructor
    · intro hmem
      exact List.mem_map.mpr ⟨(w, i), hmem, rfl⟩
    · intro hmem
      obtain ⟨p, hp, hpe⟩ := List.mem_map.mp hmem
      have h1 : p.2 = i := (Prod.mk.injEq _ _ _ _ ▸ hpe).1
      have h2 : p.1 = w := (Prod.mk.injEq _ _ _ _ ▸ hpe).2
      have : p = (w, i) := by rw [← h1, ← h2]
      rwa [this] at hp
  · intro lines nmax h1 hnd
    unfold load_vec
    rw [loadAux_none_of_dup lines nmax [] [] (by simpa using h1) (by simpa using hnd)
      (by simp)]

/-- Witness for the amended claim C6: the invariants hold for the table loaded
from the one-line file a -> [1], and loading the duplicated file x, x with cap
3 aborts. -/
theorem c6_amended_witness :
    ((([("a", 0)] : List (String × ℕ)).map Prod.fst).Nodup ∧
      ([("a", 0)] : List (String × ℕ)).length = ([[(1:ℚ)]] : List (List ℚ)).length ∧
      ([("a", 0)] : List (String × ℕ)).map Prod.snd =
        List.range ([("a", 0)] : List (String × ℕ)).length ∧
      (("a", 0) ∈ ([("a", 0)] : List (String × ℕ)) ↔
        (0, "a") ∈ ([(0, "a")] : List (ℕ × String)))) ∧
    load_vec [⟨"x", [(1:ℚ)]⟩, ⟨"x", [(2:ℚ)]⟩] 3 = none := by
  have h := c6_amended.1 [⟨"a", [(1:ℚ)]⟩] 5 [[(1:ℚ)]] [(0, "a")] [("a", 0)] (by decide)
  exact ⟨⟨h.1, h.2.1, h.2.2.1, h.2.2.2 "a" 0⟩,
    c6_amended.2 [⟨"x", [(1:ℚ)]⟩, ⟨"x", [(2:ℚ)]⟩] 3 (by decide) (by decide)⟩

/-- Claim C7: vectorizing the line "Hello, world-wide!" against a table
containing hello, world and wide (and not worldwide) yields exactly the three
vectors of hello, world and wide in that order: tokens are lowercased, the
punctuation characters are deleted anywhere in the token, and a hyphenated
token is split on every hyphen into independently looked-up subwords. -/
theorem c7_tokenization_example :
    sentVectors "Hello, world-wide!" [("hello", 0), ("world", 1), ("wide", 2)]
      [[1, 0, 0], [0, 1, 0], [0, 0, 1]] = [[1, 0, 0], [0, 1, 0], [0, 0, 1]] ∧
    List.lookup "worldwide" [("hello", 0), ("world", 1), ("wide", 2)] = none ∧
    normalizeToken "Hello,".toList = "hello".toList ∧
    subwordsOf "world-wide".toList = ["world".toList, "wide".toList] :=
  ⟨by decide, by decide, by decide, by decide⟩

/-- Claim C8 (counterexample): parallel corpora of unequal sentence counts are
not always rejected: with one source sentence and two target sentences the
scorer silently returns one score and never raises. -/
theorem c8_counterexample :
    ([[[(1:ℚ)]]] : List (List (List ℚ))).length ≠
      ([[[(1:ℚ)]], [[(1:ℚ)]]] : List (List (List ℚ))).length ∧
    scoreCorpus [[[(1:ℚ)]]] [[[(1:ℚ)]], [[(1:ℚ)]]] = some [1] := by
  refine ⟨by decide, ?_⟩
  norm_num [scoreCorpus, scoreSent, precisionOf, recallOf, maxSimTo, maxSimFrom, dot]

/-- Claim C8 (amended): when the target corpus has fewer lines than the source
corpus the positional read fails (an index error, modelled as none); when the
target has at least as many lines, extra target lines are silently ignored and
a successful run returns exactly one score per source line, aligned
positionally with the inputs. -/
theorem c8_amended :
    (∀ src tgt : List (List (List ℚ)), tgt.length < src.length →
      scoreCorpus src tgt = none) ∧
    (∀ (src tgt : List (List (List ℚ))) (l : List ℚ), scoreCorpus src tgt = some l →
      l.length = src.length ∧ src.length ≤ tgt.length ∧
      ∀ i, i < src.length → scoreSent (src.getD i []) (tgt.getD i []) = some (l.getD i 0)) := by
  constructor
  · intro src
    induction src with
    | nil => intro tgt h; simp at h
    | cons s ss ih =>
      intro tgt h
      cases tgt with
      | nil => rfl
      | cons t ts =>
        simp only [List.length_cons] at h
        have hlt : ts.length < ss.length := by omega
        cases hq : scoreSent s t with
        | none => simp [scoreCorpus, hq]
        | some q => simp [scoreCorpus, hq, ih ts hlt]
  · intro src
    induction src with
    | nil =>
      intro tgt l h
      simp only [scoreCorpus, Option.some.injEq] at h
      subst h
      refine ⟨rfl, by simp, ?_⟩
      intro i hi
      simp at hi
    | cons s ss ih =>
      intro tgt l h
      cases tgt with
      | nil => simp [scoreCorpus] at h
      | cons t ts =>
        simp only [scoreCorpus] at h
        cases hq : scoreSent s t with
        | none => rw [hq] at h; simp at h
        | some q =>
          rw [hq] at h
          cases hr : scoreCorpus ss ts with
          | none => rw [hr] at h; simp at h
          | some rest =>
            rw [hr] at h
            simp only [Option.some.injEq] at h
            subst h
            obtain ⟨hlen, hle, hidx⟩ := ih ts rest hr
            refine ⟨by simp [hlen], by simp; omega, ?_⟩
            intro i hi
            cases i with
            | zero => simpa using hq
            | succ j =>
              simp only [List.getD_cons_succ]
              exact hidx j (by simp at hi; omega)

/-- Witness for the amended claim C8: a shorter target corpus raises, and on
an equal-length pair the single returned score is the per-line score of the
aligned pair. -/
theorem c8_amended_witness :
    scoreCorpus [[[(1:ℚ)]]] [] = none ∧
    scoreSent [[(1:ℚ)]] [[(1:ℚ)]] = some ((([(1:ℚ)] : List ℚ)).getD 0 0) := by
  constructor
  · exact c8_amended.1 [[[(1:ℚ)]]] [] (by decide)
  · have h := c8_amended.2 [[[(1:ℚ)]]] [[[(1:ℚ)]]] [(1:ℚ)]
      (by norm_num [scoreCorpus, scoreSent, precisionOf, recallOf, maxSimTo, maxSimFrom, dot])
    exact h.2.2 0 (by decide)

/-- Claim C9 (counterexample): the empty string is not guaranteed absent from
word_to_index: a data line whose word field is empty (a raw line starting with
a space) is accepted by load_vec and registers the empty string, after which an
empty subword is looked up successfully and contributes a vector. -/
theorem c9_counterexample :
    load_vec [⟨"", [(1:ℚ)]⟩] 5 = some ([[1]], [(0, "")], [("", 0)]) ∧
    List.lookup "" [("", 0)] = some 0 ∧
    subwordVecs "" [("", 0)] [[(1:ℚ)]] = [[1]] :=
  ⟨by decide, by decide, by decide⟩

/-- Claim C9 (amended): for every table loaded from a file whose parsed words
are all non-empty (every raw data line starts with its word, not a space), the
empty string is absent from word_to_index, so every empty subword arising
during vectorization is skipped and contributes no vector. -/
theorem c9_amended (lines : List EmbLine) (nmax : ℕ) (E : List (List ℚ))
    (id2word : List (ℕ × String)) (word2id : List (String × ℕ))
    (h : load_vec lines nmax = some (E, id2word, word2id))
    (hw : ∀ l ∈ lines, l.word ≠ "") :
    List.lookup "" word2id = none ∧ subwordVecs "" word2id E = [] := by
  obtain ⟨vecs, haux, hvs, hid⟩ := load_vec_inv lines nmax E id2word word2id h
  have hsub := loadAux_keys_sub lines nmax [] [] word2id vecs haux
  have hnm : "" ∉ word2id.map Prod.fst := by
    intro hc
    rcases hsub "" hc with hl | hr
    · simp at hl
    · obtain ⟨l, hlm, hle⟩ := List.mem_map.mp hr
      exact hw l hlm hle
  have hlk := lookup_eq_none_of_not_mem word2id "" hnm
  refine ⟨hlk, ?_⟩
  unfold subwordVecs
  rw [hlk]

/-- Witness for the amended claim C9 on the one-line file a -> [1]. -/
theorem c9_amended_witness :
    List.lookup "" [("a", 0)] = none ∧ subwordVecs "" [("a", 0)] [[(1:ℚ)]] = [] :=
  c9_amended [⟨"a", [(1:ℚ)]⟩] 5 [[(1:ℚ)]] [(0, "a")] [("a", 0)] (by decide) (by decide)

end Muse
